import Mathlib

/-!
Verification development for the engineering-knowledge-graph core: the
entity model, the upsert/merge ingestion contract, the cycle-safe
depth-bounded BFS traversal engine, and the frontend consumers (the
dashboard's graph loading and filtering, and the chat blast-radius
rendering). Backend definitions whose server-side implementation is not
among the repository files are modelled from the specification, as their
doc comments state; frontend definitions are embedded from the JavaScript
sources.
-/

/-- An infrastructure entity (spec §3): globally unique id, human-readable
name, type tag, and an open property map modelled as an association list. -/
structure Node where
  id : String
  name : String
  type : String
  properties : List (String × String)
deriving DecidableEq

/-- A directed relationship between two node ids (spec §3), with a
relationship type tag and an optional property map. -/
structure Edge where
  source : String
  target : String
  type : String
  properties : List (String × String)
deriving DecidableEq

/-- The aggregate container owning all nodes and edges (spec §3). -/
structure KnowledgeGraph where
  nodes : List Node
  edges : List Edge
deriving DecidableEq

/-- Insert-or-replace in a list by key: if an entry with the same key is
present, every such entry is replaced by the new element; otherwise the
element is appended. Shared by node upsert (key = id) and edge upsert
(key = (source, target, type)). -/
def upsertBy {α β : Type} [DecidableEq β] (key : α → β) (l : List α) (a : α) : List α :=
  if l.any (fun x => key x = key a) then
    l.map (fun x => if key x = key a then a else x)
  else
    l ++ [a]

/-- Modelled from the spec: `upsertNode` of the Storage Backend contract
(§4.1), whose server-side implementation is not among the repository files.
Inserts or replaces a node by id; on replacement the stored properties and
type are fully overwritten and referencing edges are preserved. -/
def upsertNode (g : KnowledgeGraph) (n : Node) : KnowledgeGraph :=
  { g with nodes := upsertBy Node.id g.nodes n }

/-- An edge's identity for upsert purposes (spec §3): the tuple
(source, target, type). -/
def edgeKey (e : Edge) : String × String × String :=
  (e.source, e.target, e.type)

/-- Modelled from the spec: `upsertEdge` of the Storage Backend contract
(§4.1), whose server-side implementation is not among the repository files.
Inserts or replaces an edge by (source, target, type); fails with
`DanglingReferenceError` when either endpoint id is absent from the node set. -/
def upsertEdge (g : KnowledgeGraph) (e : Edge) : Except String KnowledgeGraph :=
  if g.nodes.any (fun m => m.id = e.source) && g.nodes.any (fun m => m.id = e.target) then
    Except.ok { g with edges := upsertBy edgeKey g.edges e }
  else
    Except.error "DanglingReferenceError"

/-- A connector-produced batch handed to the Merge/Ingestion Gate (spec §4.2). -/
structure Batch where
  nodes : List Node
  edges : List Edge
deriving DecidableEq

/-- The Merge Gate's return value (spec §4.2): the updated graph plus the
counts and the dropped-edge warnings. -/
structure MergeResult where
  graph : KnowledgeGraph
  nodesUpserted : Nat
  edgesUpserted : Nat
  warnings : List String
deriving DecidableEq

/-- One edge application inside the merge: a dangling-reference failure is
recorded as a warning, never a fatal error (spec §4.2 step 3). -/
def applyEdge (acc : MergeResult) (e : Edge) : MergeResult :=
  match upsertEdge acc.graph e with
  | Except.ok g' =>
    { acc with graph := g', edgesUpserted := acc.edgesUpserted + 1 }
  | Except.error w =>
    { acc with warnings := acc.warnings ++ [w] }

/-- Modelled from the spec: the Merge/Ingestion Gate (§4.2), whose
server-side implementation is not among the repository files (the
DEPLOYMENT_GUIDE describes it as `storage.merge_graph()` with upsert
semantics and no automatic deletion). Upserts every node of the batch
first, then applies the edges, dropping dangling ones with a warning. -/
def mergeGraph (g : KnowledgeGraph) (b : Batch) : MergeResult :=
  let g1 := b.nodes.foldl upsertNode g
  b.edges.foldl applyEdge
    { graph := g1, nodesUpserted := b.nodes.length, edgesUpserted := 0, warnings := [] }

/-- Remove from the first list the elements already in `seen` and the
duplicates within the list itself, keeping first occurrences: the
enqueue-time visited check of the BFS primitive (spec §4.3). -/
def dedupNew {α : Type} [DecidableEq α] : List α → List α → List α
  | [], _ => []
  | x :: xs, seen =>
    if x ∈ seen then dedupNew xs seen else x :: dedupNew xs (x :: seen)

/-- Modelled from the spec: the expansion loop of `bfsFrontier` (§4.3),
whose server-side implementation is not among the repository files (the
DEPLOYMENT_GUIDE shows only the visited-set fragment of the loop). The FIFO
queue is processed one depth level at a time: `frontier` holds the nodes
popped at the current level, `d` is the depth their newly reached neighbors
get, `visited` the set of nodes ever enqueued, and the fuel — the number of
expansion levels still allowed by `maxDepth` — bounds the recursion, so the
traversal terminates on any topology, cycles included. -/
def bfsAux {α : Type} [DecidableEq α] (adj : α → List α) :
    Nat → Nat → List α → List α → List (α × Nat)
  | 0, _, _, _ => []
  | fuel + 1, d, frontier, visited =>
    let next := dedupNew (frontier.flatMap adj) visited
    next.map (fun x => (x, d)) ++ bfsAux adj fuel (d + 1) next (visited ++ next)

/-- Modelled from the spec: the shared cycle-safe BFS primitive (§4.3). The
start node is enqueued at depth 0 and marked visited immediately; a node
popped at depth ≥ maxDepth is kept in the result but not expanded. Returns
every reached node paired with the smallest depth at which it was reached. -/
def bfsFrontier {α : Type} [DecidableEq α] (adj : α → List α) (start : α)
    (maxDepth : Nat) : List (α × Nat) :=
  (start, 0) :: bfsAux adj maxDepth 1 [start] [start]

/-- The edge-type filter of the traversal operations (spec §4.3): absent
filter means all types are followed. -/
def edgeTypeOk (edgeTypes : Option (List String)) (e : Edge) : Bool :=
  match edgeTypes with
  | none => true
  | some ts => e.type ∈ ts

/-- Outgoing adjacency of a node under an edge-type filter. -/
def outAdj (g : KnowledgeGraph) (edgeTypes : Option (List String)) (n : String) :
    List String :=
  (g.edges.filter (fun e => e.source = n && edgeTypeOk edgeTypes e)).map Edge.target

/-- Incoming adjacency of a node under an edge-type filter. -/
def inAdj (g : KnowledgeGraph) (edgeTypes : Option (List String)) (n : String) :
    List String :=
  (g.edges.filter (fun e => e.target = n && edgeTypeOk edgeTypes e)).map Edge.source

/-- Modelled from the spec: `downstream` (§4.3) — the outgoing BFS from a
node, excluding the start node itself from the result. -/
def downstream (g : KnowledgeGraph) (id : String) (maxDepth : Nat)
    (edgeTypes : Option (List String)) : List String :=
  ((bfsFrontier (outAdj g edgeTypes) id maxDepth).map Prod.fst).filter (fun x => x ≠ id)

/-- Modelled from the spec: `upstream` (§4.3) — the incoming BFS from a
node, excluding the start node itself from the result. -/
def upstream (g : KnowledgeGraph) (id : String) (maxDepth : Nat)
    (edgeTypes : Option (List String)) : List String :=
  ((bfsFrontier (inAdj g edgeTypes) id maxDepth).map Prod.fst).filter (fun x => x ≠ id)

/-- Modelled from the spec: the owning team of a node (§4.3 `getOwner`) —
an incoming `owns` edge when one exists, otherwise the node's `team`
property, otherwise none. -/
def ownerOf (g : KnowledgeGraph) (id : String) : Option String :=
  match (g.edges.filter (fun e => e.type = "owns" && e.target = id)).head? with
  | some e => some e.source
  | none =>
    match g.nodes.find? (fun m => m.id = id) with
    | some m => m.properties.lookup "team"
    | none => none

/-- The distinct owning teams among a list of node ids. -/
def distinctTeams (g : KnowledgeGraph) (ids : List String) : List String :=
  dedupNew (ids.filterMap (ownerOf g)) []

/-- A blast-radius result (spec §4.3): the affected set, its size, the
count of distinct owning teams among it, and the severity band. -/
structure BlastRadiusResult where
  affected : List String
  affectedCount : Nat
  teamsCount : Nat
  severity : String
deriving DecidableEq

/-- Modelled from the spec: `blastRadius` (§4.3) — the incoming BFS with a
default depth of 5 when the caller passes none, classified by severity:
LOW for an empty affected set, HIGH past the high-water mark (> 10 affected
nodes or > 3 teams, the spec's example thresholds), MEDIUM in between. -/
def blastRadius (g : KnowledgeGraph) (id : String) (maxDepth : Option Nat) :
    BlastRadiusResult :=
  let depth := maxDepth.getD 5
  let affected :=
    ((bfsFrontier (inAdj g none) id depth).map Prod.fst).filter (fun x => x ≠ id)
  let teams := distinctTeams g affected
  { affected := affected
    affectedCount := affected.length
    teamsCount := teams.length
    severity :=
      if affected.isEmpty then "LOW"
      else if 10 < affected.length || 3 < teams.length then "HIGH"
      else "MEDIUM" }

/-- A query-engine HTTP request as the frontend api service issues it:
the path and the query parameters in order. -/
structure ApiRequest where
  path : String
  params : List (String × String)
deriving DecidableEq

/-- Embeds `getDownstream` of the frontend api service
(src/unnamed/part_003): builds the downstream request, always appending
`max_depth` — 10 when the caller omits it — and `edge_types` only when
supplied, joined with commas. -/
def getDownstreamRequest (nodeId : String) (maxDepth : Option Nat)
    (edgeTypes : Option (List String)) : ApiRequest :=
  { path := "/api/query/downstream/" ++ nodeId
    params := [("max_depth", toString (maxDepth.getD 10))] ++
      (match edgeTypes with
       | some ts => [("edge_types", String.intercalate "," ts)]
       | none => []) }

/-- Embeds `getUpstream` of the frontend api service (src/unnamed/part_003):
same shape as the downstream request, with the upstream path. -/
def getUpstreamRequest (nodeId : String) (maxDepth : Option Nat)
    (edgeTypes : Option (List String)) : ApiRequest :=
  { path := "/api/query/upstream/" ++ nodeId
    params := [("max_depth", toString (maxDepth.getD 10))] ++
      (match edgeTypes with
       | some ts => [("edge_types", String.intercalate "," ts)]
       | none => []) }

/-- Embeds `getBlastRadius` of the frontend api service
(src/unnamed/part_003): the blast-radius request carries `max_depth`,
5 when the caller omits it, and no other parameter. -/
def getBlastRadiusRequest (nodeId : String) (maxDepth : Option Nat) : ApiRequest :=
  { path := "/api/query/blast-radius/" ++ nodeId
    params := [("max_depth", toString (maxDepth.getD 5))] }

/-- A rendered graph link as the dashboard stores it. -/
structure Link where
  source : String
  target : String
  type : String
deriving DecidableEq

/-- The dashboard's graph state: the node array and the validated links. -/
structure GraphView where
  nodes : List Node
  links : List Link
deriving DecidableEq

/-- The dashboard's stats panel counters. -/
structure DashboardStats where
  totalNodes : Nat
  services : Nat
  databases : Nat
  teams : Nat
  edges : Nat
deriving DecidableEq

/-- Embeds `loadGraphData` of EnterpriseDashboard
(src/frontend/src/components/EnterpriseDashboard.js): keeps only the edges
whose source and target ids both occur in the node array, builds the links
from those valid edges, and reports the edge count as the count of valid
edges only. -/
def loadGraphData (nodesArray : List Node) (edgesArray : List Edge) :
    GraphView × DashboardStats :=
  let nodeIds := nodesArray.map Node.id
  let validEdges := edgesArray.filter (fun e => e.source ∈ nodeIds && e.target ∈ nodeIds)
  ({ nodes := nodesArray
     links := validEdges.map (fun e => { source := e.source, target := e.target, type := e.type }) },
   { totalNodes := nodesArray.length
     services := (nodesArray.filter (fun n => n.type = "service")).length
     databases := (nodesArray.filter (fun n => n.type = "database")).length
     teams := (nodesArray.filter (fun n => n.type = "team")).length
     edges := validEdges.length })

/-- A dashboard node as the filter panel sees it: id, name, type and an
optional team label. -/
structure FNode where
  id : String
  name : String
  type : String
  team : Option String
deriving DecidableEq

/-- The JavaScript `toLowerCase` on our character model (ASCII case map). -/
def strToLower (s : String) : String :=
  String.mk (s.toList.map Char.toLower)

/-- JavaScript whitespace as `trim` removes it (ASCII subset). -/
def isSpaceChar (c : Char) : Bool :=
  c = ' ' || c = '\t' || c = '\n' || c = '\r'

/-- The JavaScript `trim` on our character model: strip leading and
trailing whitespace. -/
def strTrim (s : String) : String :=
  String.mk (((s.toList.dropWhile isSpaceChar).reverse.dropWhile isSpaceChar).reverse)

/-- Whether the first character list starts with the second. -/
def charsStartWith : List Char → List Char → Bool
  | _, [] => true
  | [], _ :: _ => false
  | x :: xs, y :: ys => x = y && charsStartWith xs ys

/-- Whether the second character list contains the first as a contiguous
subsequence. -/
def charsContain (q : List Char) : List Char → Bool
  | [] => q.isEmpty
  | x :: xs => charsStartWith (x :: xs) q || charsContain q xs

/-- The JavaScript `String.prototype.includes` on our character model. -/
def strIncludes (s q : String) : Bool :=
  charsContain q.toList s.toList

/-- Embeds the search predicate of `filteredData` (EnterpriseDashboard.js):
a node matches when its lowered name, id, or team label contains the
lowered query. -/
def searchMatches (query : String) (n : FNode) : Bool :=
  strIncludes (strToLower n.name) query || strIncludes (strToLower n.id) query ||
    (match n.team with
     | some t => strIncludes (strToLower t) query
     | none => false)

/-- Embeds `filteredData` of EnterpriseDashboard
(src/frontend/src/components/EnterpriseDashboard.js): applies the type
filter to the nodes and re-filters the links against the surviving node
ids, then applies the search filter and re-filters the links again. Links
carry plain string endpoints (the JS `link.source.id || link.source` reads
the same id off a force-graph-mutated link object). -/
def filteredData (nodes : List FNode) (links : List Link) (filterType : String)
    (searchQuery : String) : List FNode × List Link :=
  let step1 :=
    if filterType ≠ "" ∧ filterType ≠ "all" then
      let fnodes := nodes.filter (fun n => n.type = filterType)
      let ids := fnodes.map FNode.id
      (fnodes, links.filter (fun l => l.source ∈ ids && l.target ∈ ids))
    else (nodes, links)
  if strTrim searchQuery ≠ "" then
    let query := strToLower searchQuery
    let fnodes := step1.1.filter (searchMatches query)
    let ids := fnodes.map FNode.id
    (fnodes, step1.2.filter (fun l => l.source ∈ ids && l.target ∈ ids))
  else step1

/-- The structured chat payload ChatMessage reads (src/unnamed/part_005):
the fields its branches inspect. -/
structure ContentData where
  ctype : Option String
  message : Option String
  error : Option String
  suggestion : Option String
  service_analyzed : Option String
  affected_services : List String
  affected_services_count : Nat
  severity : String
  teams_count : Nat
deriving DecidableEq

/-- A chat message content: a plain string or a structured payload. -/
inductive ChatContent where
  | str (s : String)
  | obj (c : ContentData)
deriving DecidableEq

/-- The outcome of ChatMessage's `renderContent` branch dispatch, one
constructor per rendered card. -/
inductive Rendered where
  | plainText (s : String)
  | successCard (msg : String)
  | errorCard (msg : String)
  | blastImpact (count : Nat) (severity : String)
  | blastNoImpact
  | otherCard
deriving DecidableEq

/-- JavaScript truthiness of an optional string field: absent and empty
strings are falsy. -/
def truthy : Option String → Bool
  | none => false
  | some s => s ≠ ""

/-- Embeds `renderContent` of ChatMessage (src/unnamed/part_005): string
content renders as plain text; then the success card, then the error card
when `content.error` is truthy, then the blast-radius branch — the impact
card when `affected_services_count > 0`, otherwise the green
"No direct impact detected" card — and the remaining query-type branches
collapse into one constructor. -/
def renderContent : ChatContent → Rendered
  | ChatContent.str s => Rendered.plainText s
  | ChatContent.obj c =>
    if c.ctype = some "success" then Rendered.successCard (c.message.getD "")
    else if truthy c.error then Rendered.errorCard (c.error.getD "")
    else if c.ctype = some "blast_radius" then
      if 0 < c.affected_services_count then
        Rendered.blastImpact c.affected_services_count c.severity
      else Rendered.blastNoImpact
    else Rendered.otherCard

/-- Modelled from the spec: the chat payload the natural-language layer
(§6, out of scope as code) builds from a blast-radius result, in the shape
ChatMessage reads. -/
def blastContent (serviceId : String) (r : BlastRadiusResult) : ChatContent :=
  ChatContent.obj
    { ctype := some "blast_radius", message := none, error := none,
      suggestion := none, service_analyzed := some serviceId,
      affected_services := r.affected, affected_services_count := r.affectedCount,
      severity := r.severity, teams_count := r.teamsCount }

/-- The JavaScript `split` on a single character, on our character model:
`splitOnChar c l` is the list of maximal runs of `l` between occurrences
of `c`, with empty runs kept. -/
def splitOnChar (c : Char) : List Char → List (List Char)
  | [] => [[]]
  | x :: xs =>
    if x = c then [] :: splitOnChar c xs
    else
      match splitOnChar c xs with
      | [] => [[x]]
      | y :: ys => (x :: y) :: ys

/-- Embeds the affected-service label of ChatMessage (src/unnamed/part_005):
`serviceId.split(':')[1]` — the second component of the colon-split, absent
(JavaScript `undefined`) when the id contains no colon. -/
def serviceName (serviceId : String) : Option String :=
  ((splitOnChar ':' serviceId.toList).map (fun l => String.mk l))[1]?

/-- The id of the i-th node of the linear-chain family: i repetitions of a
single character, so distinct indices give distinct ids. -/
def chainNode (i : Nat) : String :=
  String.mk (List.replicate i 'x')

/-- The i-th dependency edge of the linear-chain family. -/
def chainEdge (i : Nat) : Edge :=
  { source := chainNode i, target := chainNode (i + 1), type := "depends_on", properties := [] }

/-- A linear chain of L dependency edges hanging off `chainNode 0`. -/
def chainGraph (L : Nat) : KnowledgeGraph :=
  { nodes := (List.range (L + 1)).map
      (fun i => { id := chainNode i, name := chainNode i, type := "service", properties := [] })
    edges := (List.range L).map chainEdge }

/-- A one-node demo graph used to instantiate theorems with hypotheses. -/
def demoGraph : KnowledgeGraph :=
  { nodes := [{ id := "service:a", name := "a", type := "service", properties := [] }]
    edges := [] }

/-- A demo node sharing `demoGraph`'s node id with different properties. -/
def demoNode : Node :=
  { id := "service:a", name := "a-renamed", type := "service",
    properties := [("team", "payments")] }

/-- A demo self-edge whose endpoints exist in `demoGraph`. -/
def demoEdge : Edge :=
  { source := "service:a", target := "service:a", type := "depends_on", properties := [] }

/-- Two demo dashboard nodes used to instantiate the filter theorems. -/
def demoFNodes : List FNode :=
  [{ id := "service:a", name := "a", type := "service", team := none },
   { id := "service:b", name := "b", type := "service", team := some "payments" }]

/-- A demo dashboard link between the two demo nodes. -/
def demoLink : Link :=
  { source := "service:a", target := "service:b", type := "depends_on" }

/-- The three-node cyclic graph A→B→C→A of the cycle-safety property. -/
def cycleGraph : KnowledgeGraph :=
  { nodes :=
      [{ id := "A", name := "A", type := "service", properties := [] },
       { id := "B", name := "B", type := "service", properties := [] },
       { id := "C", name := "C", type := "service", properties := [] }]
    edges :=
      [{ source := "A", target := "B", type := "depends_on", properties := [] },
       { source := "B", target := "C", type := "depends_on", properties := [] },
       { source := "C", target := "A", type := "depends_on", properties := [] }] }

/-! ## Properties of the traversal primitive -/

theorem mem_dedupNew {α : Type} [DecidableEq α] (l : List α) :
    ∀ (seen : List α) (x : α), x ∈ dedupNew l seen ↔ x ∈ l ∧ x ∉ seen := by
  induction l with
  | nil => intro seen x; simp [dedupNew]
  | cons y ys ih =>
    intro seen x
    by_cases hy : y ∈ seen
    · rw [dedupNew, if_pos hy, ih]
      constructor
      · rintro ⟨hx, hn⟩; exact ⟨List.mem_cons_of_mem _ hx, hn⟩
      · rintro ⟨hx, hn⟩
        cases List.mem_cons.1 hx with
        | inl h => exact absurd (h ▸ hy) hn
        | inr h => exact ⟨h, hn⟩
    · rw [dedupNew, if_neg hy]
      constructor
      · intro hx
        cases List.mem_cons.1 hx with
        | inl h => exact ⟨h ▸ List.mem_cons_self _ _, h ▸ hy⟩
        | inr h =>
          have := (ih (y :: seen) x).1 h
          exact ⟨List.mem_cons_of_mem _ this.1,
            fun hs => this.2 (List.mem_cons_of_mem _ hs)⟩
      · rintro ⟨hx, hn⟩
        cases List.mem_cons.1 hx with
        | inl h => exact h ▸ List.mem_cons_self _ _
        | inr h =>
          by_cases hxy : x = y
          · exact hxy ▸ List.mem_cons_self _ _
          · exact List.mem_cons_of_mem _
              ((ih (y :: seen) x).2 ⟨h, by simp [hn, hxy]⟩)

theorem dedupNew_nodup {α : Type} [DecidableEq α] (l : List α) :
    ∀ seen : List α, (dedupNew l seen).Nodup := by
  induction l with
  | nil => intro seen; simp [dedupNew]
  | cons y ys ih =>
    intro seen
    by_cases hy : y ∈ seen
    · rw [dedupNew, if_pos hy]; exact ih seen
    · rw [dedupNew, if_neg hy]
      refine List.Nodup.cons ?_ (ih (y :: seen))
      intro hmem
      exact ((mem_dedupNew ys (y :: seen) y).1 hmem).2 (List.mem_cons_self _ _)

theorem bfsAux_nil {α : Type} [DecidableEq α] (adj : α → List α) (fuel : Nat) :
    ∀ (d : Nat) (visited : List α), bfsAux adj fuel d [] visited = [] := by
  induction fuel with
  | zero => intro d v; rfl
  | succ fuel ih => intro d v; simp [bfsAux, dedupNew, ih]

theorem bfsAux_fst_map {α : Type} [DecidableEq α] (adj : α → List α) (fuel d : Nat)
    (frontier visited : List α) :
    (bfsAux adj (fuel + 1) d frontier visited).map Prod.fst =
      dedupNew (frontier.flatMap adj) visited ++
        (bfsAux adj fuel (d + 1) (dedupNew (frontier.flatMap adj) visited)
          (visited ++ dedupNew (frontier.flatMap adj) visited)).map Prod.fst := by
  simp only [bfsAux, List.map_append, List.map_map]
  congr 1
  exact List.map_id _ ▸ List.map_congr_left (fun x _ => rfl)

theorem bfsAux_fst_nodup_disjoint {α : Type} [DecidableEq α] (adj : α → List α)
    (fuel : Nat) :
    ∀ (d : Nat) (frontier visited : List α),
      ((bfsAux adj fuel d frontier visited).map Prod.fst).Nodup ∧
      ∀ x ∈ (bfsAux adj fuel d frontier visited).map Prod.fst, x ∉ visited := by
  induction fuel with
  | zero => intro d f v; simp [bfsAux]
  | succ fuel ih =>
    intro d f v
    rw [bfsAux_fst_map]
    obtain ⟨ihnd, ihdisj⟩ :=
      ih (d + 1) (dedupNew (f.flatMap adj) v) (v ++ dedupNew (f.flatMap adj) v)
    constructor
    · refine List.Nodup.append (dedupNew_nodup _ _) ihnd ?_
      intro x hx hrec
      exact ihdisj x hrec (List.mem_append_right _ hx)
    · intro x hx
      cases List.mem_append.1 hx with
      | inl h => exact ((mem_dedupNew _ _ _).1 h).2
      | inr h => exact fun hv => ihdisj x h (List.mem_append_left _ hv)

theorem bfsAux_depth_lt {α : Type} [DecidableEq α] (adj : α → List α) (fuel : Nat) :
    ∀ (d : Nat) (frontier visited : List α) (p : α × Nat),
      p ∈ bfsAux adj fuel d frontier visited → p.2 < d + fuel := by
  induction fuel with
  | zero => intro d f v p hp; simp [bfsAux] at hp
  | succ fuel ih =>
    intro d f v p hp
    rw [bfsAux] at hp
    cases List.mem_append.1 hp with
    | inl h =>
      obtain ⟨x, _, hx⟩ := List.mem_map.1 h
      have : p.2 = d := by rw [← hx]
      omega
    | inr h =>
      have := ih (d + 1) _ _ p h
      omega

theorem bfsFrontier_fst_nodup {α : Type} [DecidableEq α] (adj : α → List α)
    (start : α) (maxDepth : Nat) :
    ((bfsFrontier adj start maxDepth).map Prod.fst).Nodup := by
  rw [bfsFrontier]
  obtain ⟨hnd, hdisj⟩ := bfsAux_fst_nodup_disjoint adj maxDepth 1 [start] [start]
  simp only [List.map_cons]
  exact List.Nodup.cons
    (fun hmem => hdisj start hmem (List.mem_singleton.2 rfl)) hnd

theorem bfsFrontier_depth_le {α : Type} [DecidableEq α] (adj : α → List α)
    (start : α) (maxDepth : Nat) :
    ∀ p ∈ bfsFrontier adj start maxDepth, p.2 ≤ maxDepth := by
  intro p hp
  rw [bfsFrontier] at hp
  cases List.mem_cons.1 hp with
  | inl h => simp [h]
  | inr h =>
    have := bfsAux_depth_lt adj maxDepth 1 [start] [start] p h
    omega

theorem downstream_nodup (g : KnowledgeGraph) (id : String) (maxDepth : Nat)
    (edgeTypes : Option (List String)) :
    (downstream g id maxDepth edgeTypes).Nodup :=
  List.Nodup.filter _ (bfsFrontier_fst_nodup _ _ _)

/-- Claim C1: for a graph containing a cycle — concretely the edges A→B,
B→C, C→A — `downstream(A, maxDepth = 10)` terminates (the traversal is a
total function, structurally bounded by `maxDepth`) and returns exactly
{B, C}; and on every graph the result of `downstream` lists each node at
most once, because each node is marked visited at enqueue time and expanded
at most once. -/
theorem downstream_cycle_safety :
    downstream cycleGraph "A" 10 none = ["B", "C"] ∧
    ∀ (g : KnowledgeGraph) (id : String) (maxDepth : Nat)
      (edgeTypes : Option (List String)),
      (downstream g id maxDepth edgeTypes).Nodup := by
  exact ⟨by decide, fun g id m ts => downstream_nodup g id m ts⟩

example : downstream cycleGraph "A" 10 none = ["B", "C"] := by decide
/-! ## The depth bound on a linear chain -/

theorem chainNode_eq_iff (i j : Nat) : chainNode i = chainNode j ↔ i = j := by
  constructor
  · intro h
    have := congrArg String.length h
    simpa [chainNode, String.length] using this
  · intro h; rw [h]

theorem range_filter_eq (k : Nat) :
    ∀ L : Nat, (List.range L).filter (fun i => i = k) =
      if k < L then [k] else [] := by
  intro L
  induction L with
  | zero => simp
  | succ L ih =>
    rw [List.range_succ, List.filter_append, ih]
    by_cases h : k < L
    · have hne : ¬ L = k := by omega
      have h1 : k < L + 1 := by omega
      simp [h, h1, hne]
    · by_cases hk : L = k
      · subst hk
        simp [h]
      · have h1 : ¬ k < L + 1 := by omega
        simp [h, h1, hk]

theorem chainGraph_adj (L k : Nat) :
    outAdj (chainGraph L) none (chainNode k) =
      if k < L then [chainNode (k + 1)] else [] := by
  rw [outAdj, chainGraph]
  simp only [List.filter_map]
  have hpred : ((fun e => decide (Edge.source e = chainNode k) && edgeTypeOk none e) ∘
      chainEdge) = fun i => decide (i = k) := by
    funext i
    simp [chainEdge, edgeTypeOk, chainNode_eq_iff]
  rw [hpred, range_filter_eq]
  by_cases h : k < L
  · simp [h, chainEdge]
  · simp [h]

theorem chainNode_not_mem_range (k j : Nat) (h : k ≤ j) :
    chainNode j ∉ (List.range k).map chainNode := by
  intro hmem
  obtain ⟨i, hi, hij⟩ := List.mem_map.1 hmem
  rw [chainNode_eq_iff] at hij
  rw [List.mem_range] at hi
  omega

theorem chain_bfsAux (L fuel : Nat) :
    ∀ (k d : Nat),
      (bfsAux (outAdj (chainGraph L) none) fuel d [chainNode k]
        ((List.range (k + 1)).map chainNode)).map Prod.fst =
      (List.range' (k + 1) (min fuel (L - k))).map chainNode := by
  induction fuel with
  | zero => intro k d; simp [bfsAux]
  | succ fuel ih =>
    intro k d
    rw [bfsAux_fst_map]
    have hadj : (([chainNode k] : List String).flatMap (outAdj (chainGraph L) none)) =
        if k < L then [chainNode (k + 1)] else [] := by
      simp [chainGraph_adj]
    by_cases hk : k < L
    · have hnotmem : chainNode (k + 1) ∉ (List.range (k + 1)).map chainNode :=
        chainNode_not_mem_range (k + 1) (k + 1) (Nat.le_refl _)
      have hnext : dedupNew (([chainNode k] : List String).flatMap
          (outAdj (chainGraph L) none)) ((List.range (k + 1)).map chainNode) =
          [chainNode (k + 1)] := by
        rw [hadj, if_pos hk, dedupNew, if_neg hnotmem, dedupNew]
      have hvis : (List.range (k + 1)).map chainNode ++ [chainNode (k + 1)] =
          (List.range (k + 1 + 1)).map chainNode := by
        have hr : List.range (k + 1 + 1) = List.range (k + 1) ++ [k + 1] :=
          List.range_succ (k + 1)
        rw [hr, List.map_append]
        rfl
      rw [hnext, hvis, ih (k + 1) (d + 1)]
      have hmin : min (fuel + 1) (L - k) = min fuel (L - (k + 1)) + 1 := by omega
      rw [hmin, List.range'_succ, List.map_cons]
      rfl
    · have hnext : dedupNew (([chainNode k] : List String).flatMap
          (outAdj (chainGraph L) none)) ((List.range (k + 1)).map chainNode) =
          [] := by
        rw [hadj, if_neg hk]; rfl
      have hLk : L - k = 0 := by omega
      rw [hnext, bfsAux_nil, hLk]
      simp

/-- Claim C2: for the linear chain of L nodes hanging off the start node
and any depth bound d, `downstream(start, maxDepth = d)` returns exactly
min(d, L) nodes — a node popped at depth ≥ maxDepth is not expanded further
but is still included in the result. -/
theorem downstream_depth_bound :
    ∀ (L d : Nat),
      (downstream (chainGraph L) (chainNode 0) d none).length = min d L := by
  intro L d
  rw [downstream, bfsFrontier, List.map_cons]
  have hchain := chain_bfsAux L d 0 1
  have h0 : (List.range (0 + 1)).map chainNode = ([chainNode 0] : List String) := by
    decide
  rw [h0] at hchain
  rw [hchain]
  have hmem : ∀ a ∈ (List.range' (0 + 1) (min d (L - 0))).map chainNode,
      decide (a ≠ chainNode 0) = true := by
    intro a ha
    obtain ⟨j, hj, hja⟩ := List.mem_map.1 ha
    have h1 : 1 ≤ j := (List.mem_range'_1.1 hj).1
    subst hja
    simp only [ne_eq, chainNode_eq_iff, decide_eq_true_eq]
    omega
  rw [List.filter_cons]
  have hhead : (decide (chainNode 0 ≠ chainNode 0)) = false := by simp
  rw [hhead]
  simp only [Bool.false_eq_true, if_false]
  rw [List.filter_eq_self.2 hmem]
  simp

/-! ## Idempotent upsert and merge safety -/

theorem mem_upsertBy_self {α β : Type} [DecidableEq β] (key : α → β) (l : List α)
    (a : α) : a ∈ upsertBy key l a := by
  rw [upsertBy]
  by_cases h : l.any (fun x => key x = key a) = true
  · rw [if_pos h]
    obtain ⟨x, hx, hkx⟩ := List.any_eq_true.1 h
    refine List.mem_map.2 ⟨x, hx, ?_⟩
    rw [if_pos (of_decide_eq_true hkx)]
  · rw [if_neg h]
    exact List.mem_append_right _ (List.mem_singleton.2 rfl)

theorem upsertBy_eq_of_key {α β : Type} [DecidableEq β] (key : α → β) (l : List α)
    (a : α) : ∀ x ∈ upsertBy key l a, key x = key a → x = a := by
  intro x hx hkey
  rw [upsertBy] at hx
  by_cases h : l.any (fun y => key y = key a) = true
  · rw [if_pos h] at hx
    obtain ⟨y, hy, hyx⟩ := List.mem_map.1 hx
    by_cases hk : key y = key a
    · rw [if_pos hk] at hyx; exact hyx.symm
    · rw [if_neg hk] at hyx
      exact absurd (hyx ▸ hkey) hk
  · rw [if_neg h] at hx
    cases List.mem_append.1 hx with
    | inl hl =>
      exact absurd (List.any_eq_true.2 ⟨x, hl, decide_eq_true hkey⟩) h
    | inr hr => exact List.mem_singleton.1 hr

theorem mem_upsertBy_of_ne {α β : Type} [DecidableEq β] (key : α → β) (l : List α)
    (a x : α) (hx : x ∈ l) (hne : key x ≠ key a) : x ∈ upsertBy key l a := by
  rw [upsertBy]
  by_cases h : l.any (fun y => key y = key a) = true
  · rw [if_pos h]
    refine List.mem_map.2 ⟨x, hx, ?_⟩
    rw [if_neg hne]
  · rw [if_neg h]
    exact List.mem_append_left _ hx

theorem upsertBy_any_true {α β : Type} [DecidableEq β] (key : α → β) (l : List α)
    (a : α) : (upsertBy key l a).any (fun x => key x = key a) = true :=
  List.any_eq_true.2 ⟨a, mem_upsertBy_self key l a, by simp⟩

theorem upsertBy_idem {α β : Type} [DecidableEq β] (key : α → β) (l : List α)
    (a : α) : upsertBy key (upsertBy key l a) a = upsertBy key l a := by
  conv_lhs => rw [upsertBy]
  rw [if_pos (upsertBy_any_true key l a)]
  have hfix : ∀ x ∈ upsertBy key l a, (if key x = key a then a else x) = x := by
    intro x hx
    by_cases hk : key x = key a
    · rw [if_pos hk]
      exact (upsertBy_eq_of_key key l a x hx hk).symm
    · rw [if_neg hk]
  exact (List.map_congr_left hfix).trans (List.map_id _)

theorem replace_filter {α β : Type} [DecidableEq β] (key : α → β) (a : α) :
    ∀ l : List α, (l.map key).Nodup → l.any (fun x => key x = key a) = true →
      (l.map (fun x => if key x = key a then a else x)).filter
        (fun x => key x = key a) = [a] := by
  intro l
  induction l with
  | nil => intro _ h; simp at h
  | cons y ys ih =>
    intro hnd hany
    rw [List.map_cons] at hnd
    by_cases hk : key y = key a
    · rw [List.map_cons, if_pos hk, List.filter_cons]
      have hcond : decide (key a = key a) = true := by simp
      rw [hcond]
      simp only [if_true]
      have htail : (ys.map (fun x => if key x = key a then a else x)).filter
          (fun x => key x = key a) = [] := by
        refine List.filter_eq_nil_iff.2 ?_
        intro b hb
        obtain ⟨x, hx, hxb⟩ := List.mem_map.1 hb
        have hxk : key x ≠ key a := by
          intro heq
          exact (List.nodup_cons.1 hnd).1
            (hk ▸ heq ▸ List.mem_map.2 ⟨x, hx, rfl⟩)
        rw [if_neg hxk] at hxb
        subst hxb
        simp [hxk]
      rw [htail]
    · rw [List.map_cons, if_neg hk, List.filter_cons]
      have hcond : decide (key y = key a) = false := by
        simp [hk]
      rw [hcond]
      simp only [Bool.false_eq_true, if_false]
      have hany' : ys.any (fun x => key x = key a) = true := by
        obtain ⟨x, hx, hkx⟩ := List.any_eq_true.1 hany
        cases List.mem_cons.1 hx with
        | inl h => exact absurd (of_decide_eq_true (h ▸ hkx)) hk
        | inr h => exact List.any_eq_true.2 ⟨x, h, hkx⟩
      exact ih (List.nodup_cons.1 hnd).2 hany'

theorem upsertBy_filter {α β : Type} [DecidableEq β] (key : α → β) (l : List α)
    (a : α) (h : (l.map key).Nodup) :
    (upsertBy key l a).filter (fun x => key x = key a) = [a] := by
  rw [upsertBy]
  by_cases hany : l.any (fun x => key x = key a) = true
  · rw [if_pos hany]
    exact replace_filter key a l h hany
  · rw [if_neg hany, List.filter_append]
    have h1 : l.filter (fun x => key x = key a) = [] := by
      refine List.filter_eq_nil_iff.2 ?_
      intro x hx hpx
      exact hany (List.any_eq_true.2 ⟨x, hx, hpx⟩)
    rw [h1]
    simp

/-- Claim C3: upserting the same node (keyed by id) or edge (keyed by the
tuple (source, target, type)) twice leaves the graph in the same state as
upserting it once; under the identifier-uniqueness invariant exactly one
copy exists afterwards and its properties equal the last write. -/
theorem upsert_idempotent_last_write (g : KnowledgeGraph) (n : Node) (e : Edge)
    (hn : (g.nodes.map Node.id).Nodup) (he : (g.edges.map edgeKey).Nodup) :
    upsertNode (upsertNode g n) n = upsertNode g n ∧
    (upsertNode g n).nodes.filter (fun m => m.id = n.id) = [n] ∧
    ∀ g', upsertEdge g e = Except.ok g' →
      upsertEdge g' e = Except.ok g' ∧
      g'.edges.filter (fun f => edgeKey f = edgeKey e) = [e] := by
  refine ⟨?_, ?_, ?_⟩
  · simp [upsertNode, upsertBy_idem]
  · exact upsertBy_filter Node.id g.nodes n hn
  · intro g' hok
    rw [upsertEdge] at hok
    split at hok
    case isTrue hc =>
      have hg' : { g with edges := upsertBy edgeKey g.edges e } = g' :=
        Except.ok.inj hok
      constructor
      · rw [← hg', upsertEdge]
        simp only [upsertBy_idem]
        exact if_pos hc
      · rw [← hg']
        exact upsertBy_filter edgeKey g.edges e he
    case isFalse hc => exact absurd hok (by simp)

/-- Witness for C3 at a concrete graph, node and edge. -/
theorem upsert_idempotent_last_write_witness :
    upsertNode (upsertNode demoGraph demoNode) demoNode = upsertNode demoGraph demoNode ∧
    (upsertNode demoGraph demoNode).nodes.filter (fun m => m.id = demoNode.id) = [demoNode] ∧
    ∀ g', upsertEdge demoGraph demoEdge = Except.ok g' →
      upsertEdge g' demoEdge = Except.ok g' ∧
      g'.edges.filter (fun f => edgeKey f = edgeKey demoEdge) = [demoEdge] :=
  upsert_idempotent_last_write demoGraph demoNode demoEdge (by decide) (by decide)

theorem upsertNode_edges (g : KnowledgeGraph) (n : Node) :
    (upsertNode g n).edges = g.edges := rfl

theorem foldl_upsertNode_edges :
    ∀ (ns : List Node) (g : KnowledgeGraph),
      (ns.foldl upsertNode g).edges = g.edges := by
  intro ns
  induction ns with
  | nil => intro g; rfl
  | cons n ns ih =>
    intro g
    rw [List.foldl_cons, ih, upsertNode_edges]

theorem foldl_upsertNode_mem :
    ∀ (ns : List Node) (g : KnowledgeGraph) (m : Node),
      m ∈ g.nodes → m.id ∉ ns.map Node.id →
      m ∈ (ns.foldl upsertNode g).nodes := by
  intro ns
  induction ns with
  | nil => intro g m hm _; exact hm
  | cons n ns ih =>
    intro g m hm hnotin
    rw [List.map_cons] at hnotin
    have h1 : m.id ≠ n.id := fun h => hnotin (h ▸ List.mem_cons_self _ _)
    have h2 : m.id ∉ ns.map Node.id := fun h => hnotin (List.mem_cons_of_mem _ h)
    rw [List.foldl_cons]
    exact ih (upsertNode g n) m (mem_upsertBy_of_ne Node.id g.nodes n m hm h1) h2

theorem upsertEdge_ok_parts (g : KnowledgeGraph) (e : Edge) (g' : KnowledgeGraph)
    (h : upsertEdge g e = Except.ok g') :
    g' = { g with edges := upsertBy edgeKey g.edges e } := by
  rw [upsertEdge] at h
  split at h
  · exact (Except.ok.inj h).symm
  · exact absurd h (by simp)

theorem applyEdge_graph_nodes (acc : MergeResult) (e : Edge) :
    (applyEdge acc e).graph.nodes = acc.graph.nodes := by
  rw [applyEdge]
  cases hcall : upsertEdge acc.graph e with
  | ok g' =>
    rw [upsertEdge_ok_parts acc.graph e g' hcall]
  | error w => rfl

theorem applyEdge_mem_edge (acc : MergeResult) (e f : Edge)
    (hf : f ∈ acc.graph.edges) (hne : edgeKey f ≠ edgeKey e) :
    f ∈ (applyEdge acc e).graph.edges := by
  rw [applyEdge]
  cases hcall : upsertEdge acc.graph e with
  | ok g' =>
    rw [upsertEdge_ok_parts acc.graph e g' hcall]
    exact mem_upsertBy_of_ne edgeKey acc.graph.edges e f hf hne
  | error w => exact hf

theorem foldl_applyEdge_nodes :
    ∀ (es : List Edge) (acc : MergeResult),
      ((es.foldl applyEdge acc).graph.nodes) = acc.graph.nodes := by
  intro es
  induction es with
  | nil => intro acc; rfl
  | cons e es ih =>
    intro acc
    rw [List.foldl_cons, ih, applyEdge_graph_nodes]

theorem foldl_applyEdge_mem :
    ∀ (es : List Edge) (acc : MergeResult) (f : Edge),
      f ∈ acc.graph.edges → edgeKey f ∉ es.map edgeKey →
      f ∈ ((es.foldl applyEdge acc).graph.edges) := by
  intro es
  induction es with
  | nil => intro acc f hf _; exact hf
  | cons e es ih =>
    intro acc f hf hnotin
    rw [List.map_cons] at hnotin
    have h1 : edgeKey f ≠ edgeKey e := fun h => hnotin (h ▸ List.mem_cons_self _ _)
    have h2 : edgeKey f ∉ es.map edgeKey := fun h => hnotin (List.mem_cons_of_mem _ h)
    rw [List.foldl_cons]
    exact ih (applyEdge acc e) f (applyEdge_mem_edge acc e f hf h1) h2

/-- Claim C4: applying a connector batch through the Merge/Ingestion Gate
leaves every node and edge already in the graph but absent from the batch
present and unchanged — re-ingestion never implicitly deletes or alters
entities the batch does not mention. -/
theorem merge_no_implicit_deletion (g : KnowledgeGraph) (b : Batch) :
    (∀ m ∈ g.nodes, m.id ∉ b.nodes.map Node.id →
      m ∈ (mergeGraph g b).graph.nodes) ∧
    (∀ e ∈ g.edges, edgeKey e ∉ b.edges.map edgeKey →
      e ∈ (mergeGraph g b).graph.edges) := by
  constructor
  · intro m hm hnot
    rw [mergeGraph, foldl_applyEdge_nodes]
    exact foldl_upsertNode_mem b.nodes g m hm hnot
  · intro e he hnot
    rw [mergeGraph]
    refine foldl_applyEdge_mem b.edges _ e ?_ hnot
    show e ∈ (b.nodes.foldl upsertNode g).edges
    rw [foldl_upsertNode_edges]
    exact he

/-! ## Frontend consumers: dashboard and chat -/

/-- Claim C5: every edge in the graph materialization the dashboard hands
to consumers has both its source id and its target id in the accompanying
node set — edges referencing a missing endpoint are filtered out before
use — and the reported edge count counts only these valid edges. -/
theorem load_graph_data_valid (nodesArray : List Node) (edgesArray : List Edge) :
    (∀ l ∈ (loadGraphData nodesArray edgesArray).1.links,
      l.source ∈ nodesArray.map Node.id ∧ l.target ∈ nodesArray.map Node.id) ∧
    (loadGraphData nodesArray edgesArray).2.edges =
      (loadGraphData nodesArray edgesArray).1.links.length := by
  constructor
  · intro l hl
    simp only [loadGraphData, List.mem_map, List.mem_filter, Bool.and_eq_true,
      decide_eq_true_eq] at hl
    obtain ⟨e, ⟨_, hsrc, htgt⟩, heq⟩ := hl
    subst heq
    exact ⟨by simpa using hsrc, by simpa using htgt⟩
  · simp [loadGraphData]

/-- Claim C6: `blastRadius` invoked without an explicit depth uses
maxDepth = 5 — the issued request carries `max_depth = 5` — and its
affected set equals the node set of `upstream(id, maxDepth = 5)`, together
with the count of affected nodes and the count of distinct owning teams
among them. -/
theorem blast_radius_refines_upstream (g : KnowledgeGraph) (id : String) :
    (blastRadius g id none).affected = upstream g id 5 none ∧
    (blastRadius g id none).affectedCount = (upstream g id 5 none).length ∧
    (blastRadius g id none).teamsCount =
      (distinctTeams g (upstream g id 5 none)).length ∧
    (getBlastRadiusRequest id none).params = [("max_depth", "5")] := by
  exact ⟨rfl, rfl, rfl, rfl⟩

/-- Claim C7: when the affected set of a blast-radius query is empty, the
result is a valid non-error value classified LOW, and ChatMessage renders
it through the success-styled "No direct impact detected" card, never
through the error card. -/
theorem blast_radius_empty_no_error (g : KnowledgeGraph) (id : String)
    (h : (blastRadius g id none).affected = []) :
    (blastRadius g id none).affectedCount = 0 ∧
    (blastRadius g id none).severity = "LOW" ∧
    renderContent (blastContent id (blastRadius g id none)) = Rendered.blastNoImpact ∧
    ∀ s, renderContent (blastContent id (blastRadius g id none)) ≠ Rendered.errorCard s := by
  have haff : ((bfsFrontier (inAdj g none) id 5).map
      Prod.fst).filter (fun x => x ≠ id) = [] := h
  have hstruct : blastRadius g id none =
      { affected := [], affectedCount := 0, teamsCount := 0, severity := "LOW" } := by
    simp only [ne_eq, decide_not] at haff
    simp [blastRadius, distinctTeams, dedupNew, haff]
  refine ⟨by rw [hstruct], by rw [hstruct], ?_, ?_⟩
  · rw [hstruct]
    simp [renderContent, blastContent, truthy]
  · intro s hcontra
    rw [hstruct] at hcontra
    simp [renderContent, blastContent, truthy] at hcontra

/-- Witness for C7 at a concrete leaf: the only node of `demoGraph` has no
dependents, and the empty blast radius renders as the no-impact card. -/
theorem blast_radius_empty_no_error_witness :
    (blastRadius demoGraph "service:a" none).affectedCount = 0 ∧
    (blastRadius demoGraph "service:a" none).severity = "LOW" ∧
    renderContent (blastContent "service:a" (blastRadius demoGraph "service:a" none)) =
      Rendered.blastNoImpact ∧
    ∀ s, renderContent (blastContent "service:a" (blastRadius demoGraph "service:a" none)) ≠
      Rendered.errorCard s :=
  blast_radius_empty_no_error demoGraph "service:a" (by decide)

/-- Claim C8: `downstream` and `upstream` requests issued without an
explicit depth always carry `max_depth = 10`; a caller-supplied depth is
always carried; and the depth bound is a hard ceiling independent of graph
topology — every node the traversal reaches has depth at most `maxDepth`,
in either direction. -/
theorem traversal_default_depth_ten :
    (∀ id : String, (getDownstreamRequest id none none).params = [("max_depth", "10")]) ∧
    (∀ id : String, (getUpstreamRequest id none none).params = [("max_depth", "10")]) ∧
    (∀ (id : String) (d : Nat) (ts : Option (List String)),
      ("max_depth", toString d) ∈ (getDownstreamRequest id (some d) ts).params ∧
      ("max_depth", toString d) ∈ (getUpstreamRequest id (some d) ts).params) ∧
    (∀ (g : KnowledgeGraph) (ts : Option (List String)) (id : String) (d : Nat),
      (∀ p ∈ bfsFrontier (outAdj g ts) id d, p.2 ≤ d) ∧
      (∀ p ∈ bfsFrontier (inAdj g ts) id d, p.2 ≤ d)) := by
  refine ⟨fun id => rfl, fun id => rfl, fun id d ts => ?_, fun g ts id d => ?_⟩
  · constructor
    · exact List.mem_append_left _ (List.mem_singleton.2 rfl)
    · exact List.mem_append_left _ (List.mem_singleton.2 rfl)
  · exact ⟨bfsFrontier_depth_le (outAdj g ts) id d,
      bfsFrontier_depth_le (inAdj g ts) id d⟩

/-- Claim C9: for a loaded graph (whose links all have endpoints among the
loaded nodes), every type-filter selection and every search query yield a
filtered view whose links all have both endpoints in the filtered node
set — the rendered view never contains a link with a missing endpoint. -/
theorem filtered_data_no_dangling (nodes : List FNode) (links : List Link)
    (filterType searchQuery : String)
    (hvalid : ∀ l ∈ links,
      l.source ∈ nodes.map FNode.id ∧ l.target ∈ nodes.map FNode.id) :
    ∀ l ∈ (filteredData nodes links filterType searchQuery).2,
      l.source ∈ (filteredData nodes links filterType searchQuery).1.map FNode.id ∧
      l.target ∈ (filteredData nodes links filterType searchQuery).1.map FNode.id := by
  intro l hl
  simp only [filteredData] at hl ⊢
  by_cases h2 : strTrim searchQuery ≠ ""
  · rw [if_pos h2] at hl ⊢
    obtain ⟨hmem, hcond⟩ := List.mem_filter.1 hl
    rw [Bool.and_eq_true, decide_eq_true_eq, decide_eq_true_eq] at hcond
    exact hcond
  · rw [if_neg h2] at hl ⊢
    by_cases h1 : filterType ≠ "" ∧ filterType ≠ "all"
    · rw [if_pos h1] at hl ⊢
      obtain ⟨hmem, hcond⟩ := List.mem_filter.1 hl
      rw [Bool.and_eq_true, decide_eq_true_eq, decide_eq_true_eq] at hcond
      exact hcond
    · rw [if_neg h1] at hl ⊢
      exact hvalid l hl

/-- Witness for C9 at a concrete dashboard state: under the `service` type
filter with an empty search, the surviving link's endpoints are among the
surviving node ids. -/
theorem filtered_data_no_dangling_witness :
    demoLink.source ∈ (filteredData demoFNodes [demoLink] "service" "").1.map FNode.id ∧
    demoLink.target ∈ (filteredData demoFNodes [demoLink] "service" "").1.map FNode.id :=
  filtered_data_no_dangling demoFNodes [demoLink] "service" "" (by decide)
    demoLink (by decide)

theorem splitOnChar_not_mem (c : Char) :
    ∀ l : List Char, c ∉ l → splitOnChar c l = [l] := by
  intro l
  induction l with
  | nil => intro _; rfl
  | cons x xs ih =>
    intro h
    have hx : ¬ x = c := fun he => h (he ▸ List.mem_cons_self _ _)
    have hxs : c ∉ xs := fun hm => h (List.mem_cons_of_mem _ hm)
    simp only [splitOnChar, if_neg hx, ih hxs]

/-- Claim C10: ChatMessage labels an affected service by splitting its id
on the colon and taking index 1 — 'service:api' renders as 'api' — and for
an id containing no colon that index is undefined: the extraction is
partial and assumes the type-colon-name id format. -/
theorem service_name_partial :
    serviceName "service:api" = some "api" ∧
    serviceName "api" = none ∧
    (∀ s : String, ':' ∉ s.toList → serviceName s = none) := by
  refine ⟨by decide, by decide, ?_⟩
  intro s h
  rw [serviceName, splitOnChar_not_mem ':' s.toList h]
  rfl

example : serviceName "service:api" = some "api" := by decide
example : serviceName "api" = none := by decide
example : (getBlastRadiusRequest "x" none).params = [("max_depth", "5")] := by decide
